import Mathlib

/-!
Verification model of the aspia router and settings code.

The visible source provides the router service wrapper (router/win/service.cc)
and the JSON settings store (base/settings/json_settings.cc).  The router's
session registry and relay engine themselves are not part of the visible
source; they are modelled from the specification (each such definition is
marked `Modelled from the spec:`).  The settings store and the service
lifecycle hooks are embedded from the source.
-/

set_option maxHeartbeats 1000000

/-! ## Relay engine: one forwarding direction (modelled from the spec) -/

/-- Modelled from the spec: one relay forwarding direction (Relay Engine,
spec 4.4).  `pending` holds the bytes the source peer has written and the
relay has not yet read, `buf` is the relay's bounded chunk buffer, and
`delivered` holds the bytes already written to the destination peer. -/
structure RelayDir where
  pending : List Nat
  buf : List Nat
  delivered : List Nat
deriving DecidableEq, Repr

/-- Modelled from the spec: one step of the forwarding loop.  With a non-empty
buffer the relay writes the buffered chunk to the destination; otherwise it
reads the next chunk (at most `chunk` bytes) from the source.  Buffering is
bounded by the fixed chunk size. -/
def dirStep (chunk : Nat) (d : RelayDir) : RelayDir :=
  match d.buf with
  | _ :: _ => { d with delivered := d.delivered ++ d.buf, buf := [] }
  | [] => { d with buf := d.pending.take chunk, pending := d.pending.drop chunk }

/-- Run the forwarding loop for at most `n` steps, stopping when the source
stream is exhausted and the buffer has been flushed. -/
def dirRun (chunk : Nat) : Nat → RelayDir → RelayDir
  | 0, d => d
  | n + 1, d =>
    if d.pending = [] ∧ d.buf = [] then d else dirRun chunk n (dirStep chunk d)

/-- Initial forwarding state for a direction whose source peer wrote `input`. -/
def dirInit (input : List Nat) : RelayDir := ⟨input, [], []⟩

/-! ## Relay session teardown (modelled from the spec) -/

/-- Modelled from the spec: lifecycle state of a `RelaySession`. -/
inductive SessState where
  | active
  | closedSt
deriving DecidableEq, Repr

/-- Modelled from the spec: a paired `RelaySession` with close counters for
its two underlying connections (counters model how many times each socket
close has been performed). -/
structure RelaySess where
  sessState : SessState
  hostCloses : Nat
  clientCloses : Nat
deriving DecidableEq, Repr

/-- Modelled from the spec: the event that ends one relay direction —
end-of-file or an I/O error observed by that direction's forwarding loop. -/
inductive EndEvent where
  | eof
  | ioErr
deriving DecidableEq, Repr

/-- Modelled from the spec: coordinated teardown.  When either direction
observes EOF or an error, both directions are torn down together and both
connections are closed; a teardown of an already-closed session is a no-op
(idempotent). -/
def endStep (s : RelaySess) (_e : EndEvent) : RelaySess :=
  match s.sessState with
  | .active =>
    { sessState := .closedSt
      hostCloses := s.hostCloses + 1
      clientCloses := s.clientCloses + 1 }
  | .closedSt => s

/-- Fold a sequence of direction-end events over a session. -/
def runSess (evs : List EndEvent) (s : RelaySess) : RelaySess :=
  evs.foldl endStep s

/-- A freshly paired, active relay session. -/
def initSess : RelaySess := ⟨.active, 0, 0⟩

/-! ## Service lifecycle (router/win/service.cc) -/

/-- State of the router `Server` object as the service wrapper sees it:
its live connections and whether its listener is accepting. -/
structure ServerSt where
  liveConns : List Nat
  accepting : Bool
deriving DecidableEq, Repr

/-- State of the `router::Service`: the owned server (if constructed),
whether a quit was posted to the task runner, whether the start sequence
completed (the point where the code logs that the service started), and the
log of connections closed on the service's behalf. -/
structure ServiceSt where
  server : Option ServerSt
  quitPosted : Bool
  startedLog : Bool
  closedConns : List Nat
deriving DecidableEq, Repr

/-- Modelled from the spec: `router::Server::start` (the Server class is not
in the visible source) either succeeds, after which the server is accepting
connections, or fails — a fatal bind failure (spec 4.1, 7). -/
def serverStart (ok : Bool) (s : ServerSt) : Bool × ServerSt :=
  if ok then (true, { s with accepting := true }) else (false, s)

/-- A freshly constructed, not yet started server. -/
def newServer : ServerSt := ⟨[], false⟩

/-- Embedded from `router::Service::onStart`: the service constructs the
server and calls `start()`; on failure it posts a quit to the task runner
and returns early, never reaching the started state; on success it reaches
the "Service started" point.  `startOk` abstracts the result of
`Server::start`. -/
def onStart (startOk : Bool) : ServiceSt :=
  let r := serverStart startOk newServer
  if !r.1 then
    { server := some r.2, quitPosted := true, startedLog := false, closedConns := [] }
  else
    { server := some r.2, quitPosted := false, startedLog := true, closedConns := [] }

/-- Modelled from the spec: destroying the `Server` (its destructor is not in
the visible source; spec 6 requires `onStop` to drain or forcibly close all
live connections and stop accepting before returning).  Returns the reset
server state and the list of connections that were closed. -/
def destroyServer (s : ServerSt) : ServerSt × List Nat :=
  (⟨[], false⟩, s.liveConns)

/-- Embedded from `router::Service::onStop`: the service resets (destroys)
the owned server. -/
def onStop (st : ServiceSt) : ServiceSt :=
  match st.server with
  | none => st
  | some s =>
    let r := destroyServer s
    { st with server := none, closedConns := st.closedConns ++ r.2 }

/-- Live connections held by the service through its server. -/
def liveConnsOf (st : ServiceSt) : List Nat :=
  match st.server with
  | none => []
  | some s => s.liveConns

/-- Whether the service's server is accepting new connections. -/
def acceptingOf (st : ServiceSt) : Bool :=
  match st.server with
  | none => false
  | some s => s.accepting

/-! ## Session Registry (modelled from the spec, 4.3) -/

/-- Modelled from the spec: why a connection was closed by the registry or
supervisor.  A deadline expiry closes the client with an explicit
unavailable/timeout signal, distinguishable from a generic I/O error
(spec 7, pairing failures). -/
inductive CloseReason where
  | superseded
  | timedOut
  | ioError
deriving DecidableEq, Repr

/-- Modelled from the spec: the Session Registry table.  `hosts` maps host
identifiers to the registered host connection (at most one per identifier),
`waiting` is the FIFO waiting list of `SessionRequest`s (host identifier,
client connection) in serialized arrival order, `relays` logs the pairs
(host connection, client connection) handed to the Relay Engine, and
`closed` logs the connections the registry closed, with the reason. -/
structure Reg where
  hosts : List (Nat × Nat)
  waiting : List (Nat × Nat)
  relays : List (Nat × Nat)
  closed : List (Nat × CloseReason)
deriving DecidableEq, Repr

/-- The empty registry. -/
def emptyReg : Reg := ⟨[], [], [], []⟩

/-- Look up the registered connection for a host identifier. -/
def hostLookup (hid : Nat) (hs : List (Nat × Nat)) : Option Nat :=
  match hs.find? (fun p => p.1 == hid) with
  | some p => some p.2
  | none => none

/-- Remove every registration for a host identifier. -/
def hostErase (hid : Nat) (hs : List (Nat × Nat)) : List (Nat × Nat) :=
  hs.filter (fun p => p.1 != hid)

/-- The oldest (FIFO) waiting request for a host identifier, if any. -/
def firstWaitFor (hid : Nat) (w : List (Nat × Nat)) : Option Nat :=
  (w.find? (fun p => p.1 == hid)).map (fun p => p.2)

/-- Remove the oldest waiting request for a host identifier. -/
def eraseFirstWait (hid : Nat) : List (Nat × Nat) → List (Nat × Nat)
  | [] => []
  | p :: rest => if p.1 == hid then rest else p :: eraseFirstWait hid rest

/-- Modelled from the spec: `registerHost(hostId, connection)`.  A prior
registration for the identifier is superseded: its connection is closed and
it is removed.  If the waiting list holds requests for the identifier, the
oldest is paired immediately and both connections are handed to the Relay
Engine; the registration is consumed by the pairing (the spec's default
one-client-per-host policy).  Otherwise the registration is inserted. -/
def registerHost (hid conn : Nat) (r : Reg) : Reg :=
  let r1 :=
    match hostLookup hid r.hosts with
    | some old =>
      { r with hosts := hostErase hid r.hosts
               closed := r.closed ++ [(old, CloseReason.superseded)] }
    | none => r
  match firstWaitFor hid r1.waiting with
  | some c =>
    { r1 with waiting := eraseFirstWait hid r1.waiting
              relays := r1.relays ++ [(conn, c)] }
  | none => { r1 with hosts := r1.hosts ++ [(hid, conn)] }

/-- Modelled from the spec: `requestSession(hostId, connection)`.  With a
live registration the pair is handed to the Relay Engine at once (consuming
the registration); otherwise the request is enqueued at the tail of the
waiting list. -/
def requestSession (hid conn : Nat) (r : Reg) : Reg :=
  match hostLookup hid r.hosts with
  | some h =>
    { r with hosts := hostErase hid r.hosts
             relays := r.relays ++ [(h, conn)] }
  | none => { r with waiting := r.waiting ++ [(hid, conn)] }

/-- Modelled from the spec: `cancel` — removes a not-yet-paired entry for the
given connection (waiting request or registration); idempotent, a no-op when
nothing matches. -/
def cancelOp (conn : Nat) (r : Reg) : Reg :=
  { r with waiting := r.waiting.filter (fun p => p.2 != conn)
           hosts := r.hosts.filter (fun p => p.2 != conn) }

/-- Modelled from the spec: the Lifecycle Supervisor firing the deadline of a
waiting request: if the connection still waits, the request is removed and
the client connection is closed with the timeout signal; otherwise (already
paired, cancelled or timed out) nothing happens. -/
def expireOp (conn : Nat) (r : Reg) : Reg :=
  if r.waiting.any (fun p => p.2 == conn) then
    { r with waiting := r.waiting.filter (fun p => p.2 != conn)
             closed := r.closed ++ [(conn, CloseReason.timedOut)] }
  else r

/-- Modelled from the spec: the registry operations, applied in serialized
order. -/
inductive REvent where
  | register (hid conn : Nat)
  | request (hid conn : Nat)
  | cancelEv (conn : Nat)
  | expire (conn : Nat)
deriving DecidableEq, Repr

/-- One serialized registry operation. -/
def rstep (r : Reg) : REvent → Reg
  | .register hid conn => registerHost hid conn r
  | .request hid conn => requestSession hid conn r
  | .cancelEv conn => cancelOp conn r
  | .expire conn => expireOp conn r

/-- Run a serialized sequence of registry operations from the empty
registry. -/
def runReg (evs : List REvent) : Reg := evs.foldl rstep emptyReg

/-- Client connections of the `requestSession` events of a trace, in trace
order. -/
def clientConns : List REvent → List Nat
  | [] => []
  | .request _ c :: rest => c :: clientConns rest
  | _ :: rest => clientConns rest

/-- How many relay pairings carry `c` as the client-side connection. -/
def pairedCount (c : Nat) (r : Reg) : Nat :=
  r.relays.countP (fun p => p.2 == c)

/-- How many times connection `c` was closed with the timeout signal. -/
def timedOutCount (c : Nat) (r : Reg) : Nat :=
  r.closed.countP (fun p => p == (c, CloseReason.timedOut))

/-- Registry well-formedness: waiting client connections are distinct, a
still-waiting client has been neither paired nor timed out, and no client
connection has been paired or timed out more than once in total. -/
def RegInv (r : Reg) : Prop :=
  (r.waiting.map Prod.snd).Nodup ∧
  (∀ q ∈ r.waiting, pairedCount q.2 r = 0 ∧ timedOutCount q.2 r = 0) ∧
  (∀ c, pairedCount c r + timedOutCount c r ≤ 1)

/-- A client connection is fresh for a registry state: not waiting, never
paired, never timed out. -/
def FreshConn (x : Nat) (r : Reg) : Prop :=
  (∀ q ∈ r.waiting, q.2 ≠ x) ∧ pairedCount x r = 0 ∧ timedOutCount x r = 0

/-- The client connections still to arrive in the trace are fresh for the
current registry state. -/
def FreshFor (evs : List REvent) (r : Reg) : Prop :=
  ∀ c ∈ clientConns evs, FreshConn c r

/-! ## JSON settings store (base/settings/json_settings.cc)

The store is embedded at the JSON document level: a parsed document is a
tree of members (`JVal`), standing for the rapidjson `Document`.  The
serialized byte form of a document and rapidjson's text printing/parsing are
the external library boundary; a well-formed writer event stream (the calls
`JsonSettings::writeFile` makes on the `PrettyWriter`) determines the
document the parser later yields, which the event builder below computes. -/

/-- A JSON value as `parseObject` distinguishes them: an object, a string, a
number, or anything else (bool, null, array — logged and skipped). -/
inductive JVal where
  | str (s : String)
  | num (n : Int)
  | obj (members : List (String × JVal))
  | other

/-- Embedded from `base::numberToString` as used by `parseObject`
(`value.GetInt64()` printed in decimal). -/
def numberToString (n : Int) : String := toString n

/-- Embedded from `createKey`: joins the current segment stack with the
`Settings::kSeparator` character between consecutive segments. -/
def createKey : List String → String
  | [] => ""
  | [s] => s
  | s :: rest => s ++ "/" ++ createKey rest

mutual

/-- Embedded from `parseObject` (value dispatch): a string member yields one
map entry at the joined key; a number is converted with `numberToString`;
a nested object is walked recursively; other types are skipped. -/
def flattenVal : List String → JVal → List (String × String)
  | segs, .str s => [(createKey segs, s)]
  | segs, .num n => [(createKey segs, numberToString n)]
  | segs, .obj ms => flattenMems segs ms
  | _, .other => []

/-- Embedded from `parseObject` (member loop): each member's name is pushed
onto the segment stack, the value is dispatched, and the name is popped. -/
def flattenMems : List String → List (String × JVal) → List (String × String)
  | _, [] => []
  | segs, (name, v) :: rest => flattenVal (segs ++ [name]) v ++ flattenMems segs rest

end

/-- Characters treated as whitespace by `TRIM_WHITESPACE` in
`base::splitStringView`. -/
def isWsChar (c : Char) : Bool :=
  c = ' ' || c = '\t' || c = '\n' || c = '\r' ||
  c = Char.ofNat 11 || c = Char.ofNat 12

/-- Trim leading and trailing whitespace from a string. -/
def trimWs (s : String) : String :=
  let l := ((s.toList.dropWhile isWsChar).reverse.dropWhile isWsChar).reverse
  String.mk l

/-- Split a character list at the separator character, the current piece
accumulated in reverse. -/
def splitRun : List Char → List Char → List (List Char)
  | [], acc => [acc.reverse]
  | c :: rest, acc =>
    if c = '/' then acc.reverse :: splitRun rest [] else splitRun rest (c :: acc)

/-- Embedded from `base::splitStringView(key, "/", TRIM_WHITESPACE,
SPLIT_WANT_NONEMPTY)`: split on the separator, trim each piece, drop empty
pieces. -/
def splitKey (s : String) : List String :=
  ((splitRun s.toList []).map (fun l => trimWs (String.mk l))).filter (fun t => t ≠ "")

/-- The calls `JsonSettings::writeFile` makes on the rapidjson
`PrettyWriter`. -/
inductive JEvent where
  | key (s : String)
  | startObj
  | endObj
  | strVal (s : String)
deriving DecidableEq, Repr

/-- Embedded from `writeFile`: the length of the common segment run between
the previous key and the current one (the `while` loop computing `count`;
the loop compares positionally and stops at the first mismatch — on the
store's key discipline neither list is exhausted first, cf. the round-trip
hypotheses). -/
def commonLen : List String → List String → Nat
  | a :: as, b :: bs => if a = b then commonLen as bs + 1 else 0
  | _, _ => 0

/-- Embedded from `writeFile` (the opening loop): every segment of the
divergent suffix except the last opens a nested object. -/
def openEvents : List String → List JEvent
  | [] => []
  | [_] => []
  | s :: rest => .key s :: .startObj :: openEvents rest

/-- Embedded from `writeFile` (one map item): close the objects of the
previous key beyond the common run, open the new objects, then write the
last segment as a string member. -/
def itemEvents (prev segs : List String) (v : String) : List JEvent :=
  let c := commonLen prev segs
  List.replicate (prev.length - 1 - c) .endObj
  ++ openEvents (segs.drop c)
  ++ [.key (segs.getLastD ""), .strVal v]

/-- Embedded from `writeFile` (the item loop and the final closing loop):
items are emitted in map order, each key split into segments; at the end the
objects still open from the last key are closed. -/
def bodyEvents : List String → List (String × String) → List JEvent
  | prev, [] => List.replicate (prev.length - 1) .endObj
  | prev, (k, v) :: rest =>
    let segs := splitKey k
    itemEvents prev segs v ++ bodyEvents segs rest

/-- Embedded from `writeFile`: the full event stream — the root object
around the items. -/
def writeEvents (m : List (String × String)) : List JEvent :=
  .startObj :: bodyEvents [] m ++ [.endObj]

/-- State of the event builder: `bad` (malformed stream), `run` with the
stack of open objects (each frame holds the member name the object will be
stored under and the already-built members of the enclosing object, newest
first), the members of the innermost object (newest first) and a pending
member name, or `doneSt` with the finished root members. -/
inductive BState where
  | bad
  | run (stack : List (String × List (String × JVal)))
        (cur : List (String × JVal)) (pend : Option String)
  | doneSt (tree : List (String × JVal))

/-- One writer/parser event applied to the builder: this computes the
document a correct JSON printer-then-parser round trip denotes, and rejects
malformed event streams (rapidjson `IsComplete` plus writer call
discipline). -/
def bstep : BState → JEvent → BState
  | .bad, _ => .bad
  | .doneSt _, _ => .bad
  | .run stk cur pend, e =>
    match e, pend with
    | .key k, none => .run stk cur (some k)
    | .strVal v, some k => .run stk ((k, .str v) :: cur) none
    | .startObj, some k => .run ((k, cur) :: stk) [] none
    | .endObj, none =>
      match stk with
      | (k, outer) :: stk2 => .run stk2 ((k, .obj cur.reverse) :: outer) none
      | [] => .doneSt cur.reverse
    | _, _ => .bad

/-- Build the document denoted by an event stream, if well formed. -/
def buildTop (evs : List JEvent) : Option (List (String × JVal)) :=
  match evs with
  | .startObj :: rest =>
    match rest.foldl bstep (.run [] [] none) with
    | .doneSt t => some t
    | _ => none
  | _ => none

/-- Lexicographic comparison of character lists, the order `std::map` keeps
its string keys in (bytewise less-than; on the ASCII keys of the settings
store codepoint order and byte order agree). -/
def charListLt : List Char → List Char → Bool
  | [], [] => false
  | [], _ :: _ => true
  | _ :: _, [] => false
  | a :: as, b :: bs =>
    if a.toNat < b.toNat then true
    else if b.toNat < a.toNat then false
    else charListLt as bs

/-- The `std::map` key order on strings. -/
def strLt (a b : String) : Bool := charListLt a.toList b.toList

/-- Sorted insertion that keeps an existing binding (`std::map::emplace`):
the map is ordered by key and an already-present key is left unchanged. -/
def insSorted (k v : String) : List (String × String) → List (String × String)
  | [] => [(k, v)]
  | (k2, v2) :: rest =>
    if strLt k k2 then (k, v) :: (k2, v2) :: rest
    else if k = k2 then (k2, v2) :: rest
    else (k2, v2) :: insSorted k v rest

/-- The `Settings::Map` (a `std::map`) built by emplacing the parsed entries
in parse order. -/
def toMap (l : List (String × String)) : List (String × String) :=
  l.foldl (fun m kv => insSorted kv.1 kv.2 m) []

/-- Content of a settings file: absent files are `Option.none` at the
filesystem level; an existing file is empty, a parseable JSON document, or
corrupt (unparseable, oversized, not a regular file, or undecryptable). -/
inductive FileContent where
  | emptyFile
  | valid (tree : List (String × JVal))
  | corrupt

/-- The slice of the filesystem `JsonSettings` touches: the configuration
file at `path_` and its `.backup` sibling. -/
structure SettingsFS where
  config : Option FileContent
  backup : Option FileContent

/-- Embedded from `JsonSettings::writeFile`: serialize the map through the
writer events; an incomplete document is rejected without writing, otherwise
the configuration file is replaced. -/
def writeFileFS (m : List (String × String)) (fs : SettingsFS) : Bool × SettingsFS :=
  match buildTop (writeEvents m) with
  | some tree => (true, { fs with config := some (.valid tree) })
  | none => (false, fs)

/-- Embedded from `JsonSettings::readFile`: a missing file is the normal
case — an empty configuration file is written and reading succeeds with the
cleared map; an empty file reads as the empty map; a corrupt file fails with
the cleared map; otherwise the document is flattened by `parseObject` and
emplaced into the map. -/
def readFileFS (fs : SettingsFS) : Bool × List (String × String) × SettingsFS :=
  match fs.config with
  | none =>
    let w := writeFileFS [] fs
    (true, [], w.2)
  | some .emptyFile => (true, [], fs)
  | some .corrupt => (false, [], fs)
  | some (.valid tree) => (true, toMap (flattenMems [] tree), fs)

/-- Embedded from `JsonSettings::hasBackupFor`. -/
def hasBackupFor (fs : SettingsFS) : Bool := fs.backup.isSome

/-- Embedded from `JsonSettings::restoreBackupFor`: the corrupted
configuration file (if any) is set aside and removed, then the backup is
copied over the configuration path (failing when no backup exists). -/
def restoreBackupFor (fs : SettingsFS) : Bool × SettingsFS :=
  match fs.backup with
  | some c => (true, { fs with config := some c })
  | none => (false, { fs with config := none })

/-- Embedded from `JsonSettings::createBackupFor`: nothing happens when the
configuration file does not exist; otherwise any old backup is replaced by a
copy of the configuration file. -/
def createBackupFor (fs : SettingsFS) : SettingsFS :=
  match fs.config with
  | none => fs
  | some c => { fs with backup := some c }

/-- Embedded from one iteration of the loop in `JsonSettings::sync`: read
the file; on failure or an empty map restore the backup when one exists; on
a successful non-empty read create the backup when none exists.  Returns the
filesystem after the iteration and the map this iteration read. -/
def syncStep (fs : SettingsFS) : SettingsFS × List (String × String) :=
  let r := readFileFS fs
  let ok := r.1
  let m := r.2.1
  let fs1 := r.2.2
  if ok then
    if m.isEmpty then
      if hasBackupFor fs1 then ((restoreBackupFor fs1).2, m) else (fs1, m)
    else
      if hasBackupFor fs1 then (fs1, m) else (createBackupFor fs1, m)
  else
    if hasBackupFor fs1 then ((restoreBackupFor fs1).2, m) else (fs1, m)

/-- Embedded from `JsonSettings::sync`: the loop body runs three times (the
`continue` after a restore re-reads on the next iteration; the loop has no
early exit), and the map of the last read is kept. -/
def syncFS (fs : SettingsFS) : SettingsFS × List (String × String) :=
  let s1 := syncStep fs
  let s2 := syncStep s1.1
  syncStep s2.1

/-- Whether `a` is a leading run of `b` (`b` starts with the segments of
`a`). -/
def leadsOf : List String → List String → Bool
  | [], _ => true
  | _ :: _, [] => false
  | a :: as, b :: bs => a == b && leadsOf as bs

/-- Whether `a` is a proper leading run of `b`: the segment-path condition
under which `writeFile`'s nesting of one key inside another is lossy, so the
round-trip hypotheses exclude it. -/
def properLead (a b : List String) : Bool := leadsOf a b && a != b

/-- The member names under which the builder's open objects are nested,
outermost first. -/
def chainOf : List (String × List (String × JVal)) → List String
  | [] => []
  | (k, _) :: stk => chainOf stk ++ [k]

/-- Close every open object of a builder stack, yielding the members of the
root object. -/
def closeAll : List (String × List (String × JVal)) → List (String × JVal) →
    List (String × JVal)
  | [], cur => cur.reverse
  | (k, outer) :: stk, cur => closeAll stk ((k, .obj cur.reverse) :: outer)

/-- The settings entries denoted by a partially built document. -/
def totalOf (stk : List (String × List (String × JVal)))
    (cur : List (String × JVal)) : List (String × String) :=
  flattenMems [] (closeAll stk cur)

/-- The entries already committed to the enclosing objects of a builder
stack. -/
def stkEntries : List (String × List (String × JVal)) → List (String × String)
  | [] => []
  | (_, outer) :: stk => stkEntries stk ++ flattenMems (chainOf stk) outer.reverse

/-- The segment lists of two consecutive keys written by `writeFile` are
admissible: the new one is non-empty and the common run stops strictly
before the end of both (except that the very first key has no predecessor). -/
def GoodNext (prev segs : List String) : Prop :=
  segs ≠ [] ∧ commonLen prev segs < segs.length ∧
    (prev = [] ∨ commonLen prev segs < prev.length)

/-- Every consecutive pair of keys in the item list is admissible. -/
def GoodSeq : List String → List (String × String) → Prop
  | _, [] => True
  | prev, (k, _) :: rest => GoodNext prev (splitKey k) ∧ GoodSeq (splitKey k) rest

/-! ## Theorems -/

theorem runSess_closed_absorb (evs : List EndEvent) (h c : Nat) :
    runSess evs ⟨.closedSt, h, c⟩ = ⟨.closedSt, h, c⟩ := by
  induction evs with
  | nil => rfl
  | cons e rest ih => simpa [runSess, List.foldl_cons, endStep] using ih

/-- C4: for every relay session and every sequence of direction-end events
(EOF or I/O error in either direction), both connections are closed together
and exactly once: the close counters never exceed one, always agree, the
session is closed exactly when the counters are one, and after at least one
direction-end event the session is closed with both connections closed
exactly once. -/
theorem relaySession_teardown_exactly_once (evs : List EndEvent) :
    (runSess evs initSess).hostCloses ≤ 1 ∧
    (runSess evs initSess).clientCloses ≤ 1 ∧
    (runSess evs initSess).hostCloses = (runSess evs initSess).clientCloses ∧
    ((runSess evs initSess).sessState = .closedSt ↔
      (runSess evs initSess).hostCloses = 1) ∧
    (evs ≠ [] →
      (runSess evs initSess).sessState = .closedSt ∧
      (runSess evs initSess).hostCloses = 1 ∧
      (runSess evs initSess).clientCloses = 1) := by
  cases evs with
  | nil => simp [runSess, initSess]
  | cons e rest =>
    have hrun : runSess (e :: rest) initSess = ⟨.closedSt, 1, 1⟩ := by
      have : endStep initSess e = ⟨.closedSt, 1, 1⟩ := by rfl
      simpa [runSess, List.foldl_cons, this] using runSess_closed_absorb rest 1 1
    rw [hrun]
    simp

theorem relaySession_teardown_exactly_once_witness :
    (runSess [EndEvent.eof] initSess).sessState = .closedSt ∧
    (runSess [EndEvent.eof] initSess).hostCloses = 1 ∧
    (runSess [EndEvent.eof] initSess).clientCloses = 1 :=
  (relaySession_teardown_exactly_once [EndEvent.eof]).2.2.2.2 (by decide)

theorem dirRun_total (chunk : Nat) (hchunk : 0 < chunk) :
    ∀ (n : Nat) (d : RelayDir),
      2 * d.pending.length + (if d.buf = [] then 0 else 1) ≤ n →
      dirRun chunk n d = ⟨[], [], d.delivered ++ d.buf ++ d.pending⟩ := by
  intro n
  induction n with
  | zero =>
    intro d hm
    have hbuf : d.buf = [] := by
      by_contra hb
      rw [if_neg hb] at hm
      omega
    have hpend : d.pending = [] := by
      rw [hbuf, if_pos rfl] at hm
      have hlen : d.pending.length = 0 := by omega
      exact List.length_eq_zero.mp hlen
    cases d with
    | mk p b del => simp_all [dirRun]
  | succ n ih =>
    intro d hm
    by_cases hdone : d.pending = [] ∧ d.buf = []
    · cases d with
      | mk p b del =>
        simp only at hdone
        simp [dirRun, hdone.1, hdone.2]
    · rw [dirRun, if_neg hdone]
      cases d with
      | mk p b del =>
        cases b with
        | cons bh bt =>
          have hstep : dirStep chunk ⟨p, bh :: bt, del⟩ = ⟨p, [], del ++ (bh :: bt)⟩ := rfl
          rw [hstep, ih]
          · simp
          · simp only [RelayDir.pending, RelayDir.buf]
            simp at hm ⊢
            omega
        | nil =>
          have hp : p ≠ [] := by
            intro hp
            exact hdone (by simp [hp])
          have hstep : dirStep chunk ⟨p, [], del⟩ = ⟨p.drop chunk, p.take chunk, del⟩ := rfl
          rw [hstep, ih]
          · simp [List.take_append_drop]
          · have htake : p.take chunk ≠ [] := by
              simp [List.take_eq_nil_iff]
              constructor
              · omega
              · exact hp
            simp only [RelayDir.pending, RelayDir.buf]
            rw [if_neg htake]
            simp at hm ⊢
            have hlen : 1 ≤ p.length := by
              cases p with
              | nil => exact absurd rfl hp
              | cons x xs => simp
            omega

/-- C3: for every chunk size and every pair of byte sequences written by the
two peers before close, running each forwarding direction of the relay to
completion delivers exactly the written bytes, byte-for-byte and in order,
to the opposite peer, in both directions. -/
theorem relay_delivers_bytes_in_order (chunk : Nat) (hostBytes clientBytes : List Nat)
    (hchunk : 0 < chunk) :
    dirRun chunk (2 * hostBytes.length + 1) (dirInit hostBytes) = ⟨[], [], hostBytes⟩ ∧
    dirRun chunk (2 * clientBytes.length + 1) (dirInit clientBytes) = ⟨[], [], clientBytes⟩ := by
  constructor
  · have h := dirRun_total chunk hchunk (2 * hostBytes.length + 1) (dirInit hostBytes)
      (by simp [dirInit])
    simpa [dirInit] using h
  · have h := dirRun_total chunk hchunk (2 * clientBytes.length + 1) (dirInit clientBytes)
      (by simp [dirInit])
    simpa [dirInit] using h

theorem relay_delivers_bytes_in_order_witness :
    dirRun 2 (2 * [1, 2, 3].length + 1) (dirInit [1, 2, 3]) = ⟨[], [], [1, 2, 3]⟩ ∧
    dirRun 2 (2 * [7, 8].length + 1) (dirInit [7, 8]) = ⟨[], [], [7, 8]⟩ :=
  relay_delivers_bytes_in_order 2 [1, 2, 3] [7, 8] (by decide)

/-- C7: a failure of `Server::start` during `onStart` aborts service start —
a quit is posted to the task runner and the started point is never reached —
while a successful start reaches the started point with no quit posted. -/
theorem service_onStart_failure_aborts :
    (onStart false).quitPosted = true ∧ (onStart false).startedLog = false ∧
    (onStart true).startedLog = true ∧ (onStart true).quitPosted = false := by
  decide

/-- C6: when `onStop` returns, the service holds no live connections and is
no longer accepting, and every connection that was live before the stop has
been closed (appears in the close log): no session survives a controlled
shutdown. -/
theorem service_onStop_closes_everything (st : ServiceSt) :
    liveConnsOf (onStop st) = [] ∧
    acceptingOf (onStop st) = false ∧
    ∀ c ∈ liveConnsOf st, c ∈ (onStop st).closedConns := by
  cases hs : st.server with
  | none =>
    refine ⟨?_, ?_, ?_⟩
    · simp [onStop, hs, liveConnsOf]
    · simp [onStop, hs, acceptingOf]
    · intro c hc
      simp [liveConnsOf, hs] at hc
  | some s =>
    refine ⟨?_, ?_, ?_⟩
    · simp [onStop, hs, liveConnsOf, destroyServer]
    · simp [onStop, hs, acceptingOf, destroyServer]
    · intro c hc
      simp [liveConnsOf, hs] at hc
      simp [onStop, hs, destroyServer]
      right
      exact hc

theorem service_onStop_closes_everything_witness :
    liveConnsOf (onStop ⟨some ⟨[5], true⟩, false, true, []⟩) = [] ∧
    acceptingOf (onStop ⟨some ⟨[5], true⟩, false, true, []⟩) = false ∧
    5 ∈ (onStop ⟨some ⟨[5], true⟩, false, true, []⟩).closedConns := by
  have h := service_onStop_closes_everything ⟨some ⟨[5], true⟩, false, true, []⟩
  exact ⟨h.1, h.2.1, h.2.2 5 (by decide)⟩

theorem hostLookup_none_not_mem (hid : Nat) (hs : List (Nat × Nat))
    (h : hostLookup hid hs = none) : ∀ p ∈ hs, p.1 ≠ hid := by
  intro p hp
  unfold hostLookup at h
  cases hf : hs.find? (fun p => p.1 == hid) with
  | some q => rw [hf] at h; exact absurd h (by simp)
  | none =>
    have := List.find?_eq_none.mp hf p hp
    simpa using this

theorem hostErase_fst_ne (hid : Nat) (hs : List (Nat × Nat)) :
    ∀ p ∈ hostErase hid hs, p.1 ≠ hid := by
  intro p hp
  unfold hostErase at hp
  have := (List.mem_filter.mp hp).2
  simpa using this

theorem hostErase_nodup (hid : Nat) (hs : List (Nat × Nat))
    (h : (hs.map Prod.fst).Nodup) : ((hostErase hid hs).map Prod.fst).Nodup := by
  unfold hostErase
  exact h.sublist (List.Sublist.map Prod.fst (List.filter_sublist hs))

theorem hosts_nodup_step (r : Reg) (e : REvent)
    (h : (r.hosts.map Prod.fst).Nodup) : ((rstep r e).hosts.map Prod.fst).Nodup := by
  cases e with
  | register hid conn =>
    show ((registerHost hid conn r).hosts.map Prod.fst).Nodup
    unfold registerHost
    cases hx : hostLookup hid r.hosts with
    | some old =>
      simp only
      cases hf : firstWaitFor hid r.waiting with
      | some c => simpa using hostErase_nodup hid r.hosts h
      | none =>
        simp only [List.map_append]
        rw [List.nodup_append]
        refine ⟨hostErase_nodup hid r.hosts h, by simp, ?_⟩
        intro a ha
        simp only [List.mem_map] at ha
        obtain ⟨p, hp, rfl⟩ := ha
        simp only [List.map_cons, List.map_nil, List.disjoint_singleton]
        simp only [List.mem_singleton]
        intro hc
        exact hostErase_fst_ne hid r.hosts p hp hc
    | none =>
      simp only
      cases hf : firstWaitFor hid r.waiting with
      | some c => simpa using h
      | none =>
        simp only [List.map_append]
        rw [List.nodup_append]
        refine ⟨h, by simp, ?_⟩
        intro a ha
        simp only [List.mem_map] at ha
        obtain ⟨p, hp, rfl⟩ := ha
        simp only [List.map_cons, List.map_nil, List.disjoint_singleton, List.mem_singleton]
        intro hc
        exact hostLookup_none_not_mem hid r.hosts hx p hp hc
  | request hid conn =>
    show ((requestSession hid conn r).hosts.map Prod.fst).Nodup
    unfold requestSession
    cases hx : hostLookup hid r.hosts with
    | some hconn => simpa using hostErase_nodup hid r.hosts h
    | none => simpa using h
  | cancelEv conn =>
    show ((cancelOp conn r).hosts.map Prod.fst).Nodup
    unfold cancelOp
    exact h.sublist (List.Sublist.map Prod.fst (List.filter_sublist r.hosts))
  | expire conn =>
    show ((expireOp conn r).hosts.map Prod.fst).Nodup
    unfold expireOp
    by_cases hc : r.waiting.any (fun p => p.2 == conn)
    · simpa [hc] using h
    · simpa [hc] using h

theorem hosts_nodup_run (evs : List REvent) :
    ∀ r : Reg, (r.hosts.map Prod.fst).Nodup → ((evs.foldl rstep r).hosts.map Prod.fst).Nodup := by
  induction evs with
  | nil => intro r h; simpa using h
  | cons e rest ih =>
    intro r h
    rw [List.foldl_cons]
    exact ih (rstep r e) (hosts_nodup_step r e h)

/-- C1: in every serialized trace of registry operations there is at most
one active registration per host identifier (the identifiers registered in
the table are always distinct), and a `registerHost` for an identifier with
a live registration closes the superseded registration's connection and
leaves at most the new connection registered under that identifier. -/
theorem registry_one_registration_per_host :
    (∀ evs : List REvent, ((runReg evs).hosts.map Prod.fst).Nodup) ∧
    (∀ (r : Reg) (hid conn old : Nat), hostLookup hid r.hosts = some old →
      (old, CloseReason.superseded) ∈ (registerHost hid conn r).closed ∧
      ∀ c : Nat, (hid, c) ∈ (registerHost hid conn r).hosts → c = conn) := by
  constructor
  · intro evs
    exact hosts_nodup_run evs emptyReg (by simp [emptyReg])
  · intro r hid conn old hx
    cases hf : firstWaitFor hid r.waiting with
    | some c =>
      constructor
      · simp [registerHost, hx, hf]
      · intro c2 hc2
        simp only [registerHost, hx, hf] at hc2
        exact absurd rfl (hostErase_fst_ne hid r.hosts (hid, c2) hc2)
    | none =>
      constructor
      · simp [registerHost, hx, hf]
      · intro c2 hc2
        simp only [registerHost, hx, hf] at hc2
        rcases List.mem_append.mp hc2 with hin | hin
        · exact absurd rfl (hostErase_fst_ne hid r.hosts (hid, c2) hin)
        · simpa using (List.mem_singleton.mp hin)

theorem registry_one_registration_per_host_witness :
    (10, CloseReason.superseded) ∈ (registerHost 1 11 ⟨[(1, 10)], [], [], []⟩).closed ∧
    11 = 11 :=
  ⟨(registry_one_registration_per_host.2 ⟨[(1, 10)], [], [], []⟩ 1 11 10 (by decide)).1,
   (registry_one_registration_per_host.2 ⟨[(1, 10)], [], [], []⟩ 1 11 10 (by decide)).2
     11 (by decide)⟩

theorem firstWaitFor_here (hid c : Nat) (l1 l2 : List (Nat × Nat))
    (h : ∀ q ∈ l1, q.1 ≠ hid) :
    firstWaitFor hid (l1 ++ (hid, c) :: l2) = some c := by
  induction l1 with
  | nil => simp [firstWaitFor]
  | cons q l1 ih =>
    have hq : ¬((fun p : Nat × Nat => p.1 == hid) q = true) := by
      simpa using h q (by simp)
    have ih2 := ih (fun p hp => h p (by simp [hp]))
    unfold firstWaitFor at ih2 ⊢
    rw [List.cons_append, List.find?_cons_of_neg (l1 ++ (hid, c) :: l2) hq]
    exact ih2

theorem eraseFirstWait_here (hid c : Nat) (l1 l2 : List (Nat × Nat))
    (h : ∀ q ∈ l1, q.1 ≠ hid) :
    eraseFirstWait hid (l1 ++ (hid, c) :: l2) = l1 ++ l2 := by
  induction l1 with
  | nil => simp [eraseFirstWait]
  | cons q l1 ih =>
    have hq : ¬(q.1 == hid) := by simpa using h q (by simp)
    have ih2 := ih (fun p hp => h p (by simp [hp]))
    rw [List.cons_append, eraseFirstWait, if_neg hq, ih2, List.cons_append]

/-- C2: when `registerHost(hostId, connection)` arrives while the waiting
list holds one or more requests for that identifier, exactly the oldest such
request (FIFO in the serialized waiting order) is paired: the new host
connection and that request's client connection are handed to the Relay
Engine, and exactly that request leaves the waiting list. -/
theorem registry_pairs_oldest_waiting (r : Reg) (hid conn c : Nat)
    (l1 l2 : List (Nat × Nat))
    (hw : r.waiting = l1 ++ (hid, c) :: l2)
    (hfirst : ∀ q ∈ l1, q.1 ≠ hid) :
    (registerHost hid conn r).relays = r.relays ++ [(conn, c)] ∧
    (registerHost hid conn r).waiting = l1 ++ l2 := by
  have hffw : firstWaitFor hid r.waiting = some c := by
    rw [hw]; exact firstWaitFor_here hid c l1 l2 hfirst
  have herase : eraseFirstWait hid r.waiting = l1 ++ l2 := by
    rw [hw]; exact eraseFirstWait_here hid c l1 l2 hfirst
  unfold registerHost
  cases hx : hostLookup hid r.hosts with
  | some old => simp [hffw, herase]
  | none => simp [hffw, herase]

theorem registry_pairs_oldest_waiting_witness :
    (registerHost 1 30 ⟨[], [(2, 20), (1, 21), (1, 22)], [], []⟩).relays = [(30, 21)] ∧
    (registerHost 1 30 ⟨[], [(2, 20), (1, 21), (1, 22)], [], []⟩).waiting =
      [(2, 20), (1, 22)] := by
  have h := registry_pairs_oldest_waiting ⟨[], [(2, 20), (1, 21), (1, 22)], [], []⟩
    1 30 21 [(2, 20)] [(1, 22)] (by decide) (by decide)
  exact ⟨h.1, h.2⟩

theorem firstWaitFor_mem (hid cw : Nat) (w : List (Nat × Nat))
    (h : firstWaitFor hid w = some cw) : (hid, cw) ∈ w := by
  unfold firstWaitFor at h
  cases hf : w.find? (fun p => p.1 == hid) with
  | none => rw [hf] at h; exact absurd h (by simp)
  | some p =>
    rw [hf] at h
    have hmem := List.mem_of_find?_eq_some hf
    have hpred : (p.1 == hid) = true := by
      have := List.find?_some hf
      simpa using this
    have h1 : p.1 = hid := by simpa using hpred
    have h2 : p.2 = cw := by simpa using h
    have : p = (hid, cw) := by
      cases p with
      | mk a b => simp at h1 h2; rw [h1, h2]
    rwa [this] at hmem

theorem eraseFirstWait_sublist (hid : Nat) (w : List (Nat × Nat)) :
    List.Sublist (eraseFirstWait hid w) w := by
  induction w with
  | nil => simp [eraseFirstWait]
  | cons p rest ih =>
    rw [eraseFirstWait]
    by_cases hp : (p.1 == hid) = true
    · rw [if_pos hp]; exact List.sublist_cons_self p rest
    · rw [if_neg hp]; exact List.Sublist.cons₂ p ih

theorem eraseFirstWait_snd_ne (hid cw : Nat) (w : List (Nat × Nat))
    (hnd : (w.map Prod.snd).Nodup) (h : firstWaitFor hid w = some cw) :
    ∀ q ∈ eraseFirstWait hid w, q.2 ≠ cw := by
  induction w with
  | nil => intro q hq; simp [eraseFirstWait] at hq
  | cons p rest ih =>
    rw [List.map_cons, List.nodup_cons] at hnd
    by_cases hp : (p.1 == hid) = true
    · have hcw : cw = p.2 := by
        unfold firstWaitFor at h
        rw [List.find?_cons_of_pos rest hp] at h
        simpa using h.symm
      intro q hq hqc
      rw [eraseFirstWait, if_pos hp] at hq
      exact hnd.1 (List.mem_map.mpr ⟨q, hq, hqc.trans hcw⟩)
    · have hrest : firstWaitFor hid rest = some cw := by
        unfold firstWaitFor at h ⊢
        rwa [List.find?_cons_of_neg rest hp] at h
      intro q hq
      rw [eraseFirstWait, if_neg hp] at hq
      rcases List.mem_cons.mp hq with rfl | hq2
      · intro hqc
        have : cw ∈ rest.map Prod.snd :=
          List.mem_map.mpr ⟨(hid, cw), firstWaitFor_mem hid cw rest hrest, rfl⟩
        rw [← hqc] at this
        exact hnd.1 this
      · exact ih hnd.2 hrest q hq2

theorem pairedCount_append (c : Nat) (R : List (Nat × Nat)) (a b : Nat) :
    (R ++ [(a, b)]).countP (fun p => p.2 == c) =
      R.countP (fun p => p.2 == c) + (if b = c then 1 else 0) := by
  rw [List.countP_append]
  by_cases h : b = c <;> simp [List.countP_cons, h]

theorem timedOutCount_append (c a : Nat) (cl : List (Nat × CloseReason)) (ra : CloseReason) :
    (cl ++ [(a, ra)]).countP (fun p => p == (c, CloseReason.timedOut)) =
      cl.countP (fun p => p == (c, CloseReason.timedOut)) +
        (if a = c ∧ ra = CloseReason.timedOut then 1 else 0) := by
  rw [List.countP_append]
  by_cases h1 : a = c
  · by_cases h2 : ra = CloseReason.timedOut
    · simp [List.countP_cons, h1, h2, Prod.ext_iff]
    · simp [List.countP_cons, h1, h2, Prod.ext_iff]
  · simp [List.countP_cons, h1, Prod.ext_iff]

theorem registerHost_timedOutCount (hid conn x : Nat) (r : Reg) :
    timedOutCount x (registerHost hid conn r) = timedOutCount x r := by
  cases hA : hostLookup hid r.hosts with
  | some old =>
    cases hB : firstWaitFor hid r.waiting with
    | some cw => simp [registerHost, hA, hB, timedOutCount, timedOutCount_append]
    | none => simp [registerHost, hA, hB, timedOutCount, timedOutCount_append]
  | none =>
    cases hB : firstWaitFor hid r.waiting with
    | some cw => simp [registerHost, hA, hB, timedOutCount]
    | none => simp [registerHost, hA, hB, timedOutCount]

theorem registerHost_waiting_none (hid conn : Nat) (r : Reg)
    (hB : firstWaitFor hid r.waiting = none) :
    (registerHost hid conn r).waiting = r.waiting := by
  cases hA : hostLookup hid r.hosts with
  | some old => simp [registerHost, hA, hB]
  | none => simp [registerHost, hA, hB]

theorem registerHost_waiting_some (hid conn cw : Nat) (r : Reg)
    (hB : firstWaitFor hid r.waiting = some cw) :
    (registerHost hid conn r).waiting = eraseFirstWait hid r.waiting := by
  cases hA : hostLookup hid r.hosts with
  | some old => simp [registerHost, hA, hB]
  | none => simp [registerHost, hA, hB]

theorem registerHost_pairedCount_none (hid conn x : Nat) (r : Reg)
    (hB : firstWaitFor hid r.waiting = none) :
    pairedCount x (registerHost hid conn r) = pairedCount x r := by
  cases hA : hostLookup hid r.hosts with
  | some old => simp [registerHost, hA, hB, pairedCount]
  | none => simp [registerHost, hA, hB, pairedCount]

theorem registerHost_pairedCount_some (hid conn x cw : Nat) (r : Reg)
    (hB : firstWaitFor hid r.waiting = some cw) :
    pairedCount x (registerHost hid conn r) =
      pairedCount x r + (if cw = x then 1 else 0) := by
  cases hA : hostLookup hid r.hosts with
  | some old =>
    by_cases hc : cw = x <;>
      simp [registerHost, hA, hB, pairedCount, List.countP_append, List.countP_cons, hc]
  | none =>
    by_cases hc : cw = x <;>
      simp [registerHost, hA, hB, pairedCount, List.countP_append, List.countP_cons, hc]

theorem regInv_registerHost (hid conn : Nat) (r : Reg) (hinv : RegInv r) :
    RegInv (registerHost hid conn r) := by
  obtain ⟨hnd, hmem, hglob⟩ := hinv
  cases hB : firstWaitFor hid r.waiting with
  | none =>
    have hw := registerHost_waiting_none hid conn r hB
    refine ⟨?_, ?_, ?_⟩
    · rw [hw]; exact hnd
    · intro q hq
      rw [hw] at hq
      exact ⟨by rw [registerHost_pairedCount_none hid conn q.2 r hB]; exact (hmem q hq).1,
             by rw [registerHost_timedOutCount]; exact (hmem q hq).2⟩
    · intro c
      rw [registerHost_pairedCount_none hid conn c r hB, registerHost_timedOutCount]
      exact hglob c
  | some cw =>
    have hw := registerHost_waiting_some hid conn cw r hB
    refine ⟨?_, ?_, ?_⟩
    · rw [hw]
      exact hnd.sublist (List.Sublist.map Prod.snd (eraseFirstWait_sublist hid r.waiting))
    · intro q hq
      rw [hw] at hq
      have hqmem : q ∈ r.waiting := (eraseFirstWait_sublist hid r.waiting).subset hq
      have hne : q.2 ≠ cw := eraseFirstWait_snd_ne hid cw r.waiting hnd hB q hq
      constructor
      · rw [registerHost_pairedCount_some hid conn q.2 cw r hB,
            if_neg (fun hcw2 => hne hcw2.symm), Nat.add_zero]
        exact (hmem q hqmem).1
      · rw [registerHost_timedOutCount]
        exact (hmem q hqmem).2
    · intro c
      rw [registerHost_timedOutCount]
      by_cases hc : cw = c
      · subst hc
        have h0 := hmem (hid, cw) (firstWaitFor_mem hid cw r.waiting hB)
        rw [registerHost_pairedCount_some hid conn cw cw r hB, if_pos rfl]
        have h1 : pairedCount cw r = 0 := h0.1
        have h2 : timedOutCount cw r = 0 := h0.2
        omega
      · rw [registerHost_pairedCount_some hid conn c cw r hB, if_neg hc, Nat.add_zero]
        exact hglob c

theorem freshConn_registerHost (hid conn x : Nat) (r : Reg) (hf : FreshConn x r) :
    FreshConn x (registerHost hid conn r) := by
  obtain ⟨hw, hp, ht⟩ := hf
  refine ⟨?_, ?_, ?_⟩
  · intro q hq
    cases hB : firstWaitFor hid r.waiting with
    | none =>
      rw [registerHost_waiting_none hid conn r hB] at hq
      exact hw q hq
    | some cw =>
      rw [registerHost_waiting_some hid conn cw r hB] at hq
      exact hw q ((eraseFirstWait_sublist hid r.waiting).subset hq)
  · cases hB : firstWaitFor hid r.waiting with
    | none => rw [registerHost_pairedCount_none hid conn x r hB]; exact hp
    | some cw =>
      have hcwne : ¬(cw = x) := by
        intro h
        subst h
        exact hw (hid, cw) (firstWaitFor_mem hid cw r.waiting hB) rfl
      rw [registerHost_pairedCount_some hid conn x cw r hB, if_neg hcwne, Nat.add_zero]
      exact hp
  · rw [registerHost_timedOutCount]; exact ht

theorem requestSession_timedOutCount (hid conn x : Nat) (r : Reg) :
    timedOutCount x (requestSession hid conn r) = timedOutCount x r := by
  cases hA : hostLookup hid r.hosts with
  | some h => simp [requestSession, hA, timedOutCount]
  | none => simp [requestSession, hA, timedOutCount]

theorem requestSession_pairedCount_some (hid conn x h : Nat) (r : Reg)
    (hA : hostLookup hid r.hosts = some h) :
    pairedCount x (requestSession hid conn r) =
      pairedCount x r + (if conn = x then 1 else 0) := by
  by_cases hc : conn = x <;>
    simp [requestSession, hA, pairedCount, List.countP_append, List.countP_cons, hc]

theorem requestSession_pairedCount_none (hid conn x : Nat) (r : Reg)
    (hA : hostLookup hid r.hosts = none) :
    pairedCount x (requestSession hid conn r) = pairedCount x r := by
  simp [requestSession, hA, pairedCount]

theorem requestSession_waiting_some (hid conn h : Nat) (r : Reg)
    (hA : hostLookup hid r.hosts = some h) :
    (requestSession hid conn r).waiting = r.waiting := by
  simp [requestSession, hA]

theorem requestSession_waiting_none (hid conn : Nat) (r : Reg)
    (hA : hostLookup hid r.hosts = none) :
    (requestSession hid conn r).waiting = r.waiting ++ [(hid, conn)] := by
  simp [requestSession, hA]

theorem expireOp_pairedCount (x0 x : Nat) (r : Reg) :
    pairedCount x (expireOp x0 r) = pairedCount x r := by
  by_cases hany : r.waiting.any (fun p => p.2 == x0)
  · simp [expireOp, hany, pairedCount]
  · simp [expireOp, hany]

theorem expireOp_timedOutCount_pos (x0 x : Nat) (r : Reg)
    (hany : r.waiting.any (fun p => p.2 == x0)) :
    timedOutCount x (expireOp x0 r) =
      timedOutCount x r + (if x0 = x then 1 else 0) := by
  by_cases hc : x0 = x
  · subst hc
    simp [expireOp, hany, timedOutCount, List.countP_append, List.countP_cons, Prod.ext_iff]
  · simp [expireOp, hany, timedOutCount, List.countP_append, List.countP_cons, hc,
      Prod.ext_iff]

theorem expireOp_waiting_pos (x0 : Nat) (r : Reg)
    (hany : r.waiting.any (fun p => p.2 == x0)) :
    (expireOp x0 r).waiting = r.waiting.filter (fun p => p.2 != x0) := by
  simp [expireOp, hany]

theorem regInv_requestSession (hid conn : Nat) (r : Reg) (hinv : RegInv r)
    (hfr : FreshConn conn r) : RegInv (requestSession hid conn r) := by
  obtain ⟨hnd, hmem, hglob⟩ := hinv
  obtain ⟨hfw, hfp, hft⟩ := hfr
  cases hA : hostLookup hid r.hosts with
  | some h =>
    refine ⟨?_, ?_, ?_⟩
    · rw [requestSession_waiting_some hid conn h r hA]; exact hnd
    · intro q hq
      rw [requestSession_waiting_some hid conn h r hA] at hq
      constructor
      · have hqc : ¬(conn = q.2) := fun hh => hfw q hq hh.symm
        rw [requestSession_pairedCount_some hid conn q.2 h r hA, if_neg hqc, Nat.add_zero]
        exact (hmem q hq).1
      · rw [requestSession_timedOutCount]
        exact (hmem q hq).2
    · intro c
      rw [requestSession_timedOutCount]
      by_cases hc : conn = c
      · subst hc
        rw [requestSession_pairedCount_some hid conn conn h r hA, if_pos rfl, hfp, hft]
      · rw [requestSession_pairedCount_some hid conn c h r hA, if_neg hc, Nat.add_zero]
        exact hglob c
  | none =>
    refine ⟨?_, ?_, ?_⟩
    · rw [requestSession_waiting_none hid conn r hA, List.map_append, List.nodup_append]
      refine ⟨hnd, by simp, ?_⟩
      intro a ha
      simp only [List.mem_map] at ha
      obtain ⟨q, hq, rfl⟩ := ha
      simp only [List.map_cons, List.map_nil, List.disjoint_singleton, List.mem_singleton]
      intro hc
      exact hfw q hq hc
    · intro q hq
      rw [requestSession_waiting_none hid conn r hA] at hq
      rw [requestSession_pairedCount_none hid conn q.2 r hA, requestSession_timedOutCount]
      rcases List.mem_append.mp hq with hin | hin
      · exact hmem q hin
      · have hq2 : q = (hid, conn) := List.mem_singleton.mp hin
        subst hq2
        exact ⟨hfp, hft⟩
    · intro c
      rw [requestSession_pairedCount_none hid conn c r hA, requestSession_timedOutCount]
      exact hglob c

theorem freshConn_requestSession (hid conn x : Nat) (r : Reg) (hx : x ≠ conn)
    (hf : FreshConn x r) : FreshConn x (requestSession hid conn r) := by
  obtain ⟨hfw, hfp, hft⟩ := hf
  cases hA : hostLookup hid r.hosts with
  | some h =>
    refine ⟨?_, ?_, ?_⟩
    · intro q hq
      rw [requestSession_waiting_some hid conn h r hA] at hq
      exact hfw q hq
    · rw [requestSession_pairedCount_some hid conn x h r hA,
          if_neg (fun hh => hx hh.symm), Nat.add_zero]
      exact hfp
    · rw [requestSession_timedOutCount]; exact hft
  | none =>
    refine ⟨?_, ?_, ?_⟩
    · intro q hq
      rw [requestSession_waiting_none hid conn r hA] at hq
      rcases List.mem_append.mp hq with hin | hin
      · exact hfw q hin
      · have hq2 : q = (hid, conn) := List.mem_singleton.mp hin
        subst hq2
        exact fun hh => hx hh.symm
    · rw [requestSession_pairedCount_none hid conn x r hA]; exact hfp
    · rw [requestSession_timedOutCount]; exact hft

theorem regInv_cancelOp (x0 : Nat) (r : Reg) (hinv : RegInv r) :
    RegInv (cancelOp x0 r) := by
  obtain ⟨hnd, hmem, hglob⟩ := hinv
  refine ⟨?_, ?_, ?_⟩
  · exact hnd.sublist (List.Sublist.map Prod.snd (List.filter_sublist r.waiting))
  · intro q hq
    exact hmem q (List.mem_filter.mp hq).1
  · intro c
    exact hglob c

theorem freshConn_cancelOp (x0 x : Nat) (r : Reg) (hf : FreshConn x r) :
    FreshConn x (cancelOp x0 r) := by
  obtain ⟨hfw, hfp, hft⟩ := hf
  exact ⟨fun q hq => hfw q (List.mem_filter.mp hq).1, hfp, hft⟩

theorem regInv_expireOp (x0 : Nat) (r : Reg) (hinv : RegInv r) :
    RegInv (expireOp x0 r) := by
  obtain ⟨hnd, hmem, hglob⟩ := hinv
  by_cases hany : r.waiting.any (fun p => p.2 == x0)
  · obtain ⟨q0, hq0, hq0x⟩ := List.any_eq_true.mp hany
    have hq0x2 : q0.2 = x0 := by simpa using hq0x
    refine ⟨?_, ?_, ?_⟩
    · rw [expireOp_waiting_pos x0 r hany]
      exact hnd.sublist (List.Sublist.map Prod.snd (List.filter_sublist r.waiting))
    · intro q hq
      rw [expireOp_waiting_pos x0 r hany] at hq
      have hin : q ∈ r.waiting := (List.mem_filter.mp hq).1
      have hqne : q.2 ≠ x0 := by
        have := (List.mem_filter.mp hq).2
        simpa using this
      constructor
      · rw [expireOp_pairedCount]
        exact (hmem q hin).1
      · rw [expireOp_timedOutCount_pos x0 q.2 r hany,
            if_neg (fun hh => hqne hh.symm), Nat.add_zero]
        exact (hmem q hin).2
    · intro c
      rw [expireOp_pairedCount]
      by_cases hc : x0 = c
      · subst hc
        have h0 := hmem q0 hq0
        rw [hq0x2] at h0
        rw [expireOp_timedOutCount_pos x0 x0 r hany, if_pos rfl, h0.1, h0.2]
      · rw [expireOp_timedOutCount_pos x0 c r hany, if_neg hc, Nat.add_zero]
        exact hglob c
  · simp only [expireOp, if_neg hany]
    exact ⟨hnd, hmem, hglob⟩

theorem freshConn_expireOp (x0 x : Nat) (r : Reg) (hf : FreshConn x r) :
    FreshConn x (expireOp x0 r) := by
  obtain ⟨hfw, hfp, hft⟩ := hf
  by_cases hany : r.waiting.any (fun p => p.2 == x0)
  · obtain ⟨q0, hq0, hq0x⟩ := List.any_eq_true.mp hany
    have hq0x2 : q0.2 = x0 := by simpa using hq0x
    have hx0x : ¬(x0 = x) := by
      intro hh
      exact hfw q0 hq0 (hq0x2.trans hh)
    refine ⟨?_, ?_, ?_⟩
    · intro q hq
      rw [expireOp_waiting_pos x0 r hany] at hq
      exact hfw q (List.mem_filter.mp hq).1
    · rw [expireOp_pairedCount]; exact hfp
    · rw [expireOp_timedOutCount_pos x0 x r hany, if_neg hx0x, Nat.add_zero]
      exact hft
  · simp only [expireOp, if_neg hany]
    exact ⟨hfw, hfp, hft⟩

theorem regInv_run (evs : List REvent) :
    ∀ r : Reg, (clientConns evs).Nodup → FreshFor evs r → RegInv r →
      RegInv (evs.foldl rstep r) := by
  induction evs with
  | nil => intro r _ _ hinv; simpa using hinv
  | cons e rest ih =>
    intro r hnd hff hinv
    rw [List.foldl_cons]
    cases e with
    | register hid conn =>
      have hnd2 : (clientConns rest).Nodup := by simpa [clientConns] using hnd
      have hff2 : FreshFor rest (rstep r (.register hid conn)) := by
        intro c hc
        have := hff c (by simpa [clientConns] using hc)
        exact freshConn_registerHost hid conn c r this
      exact ih (rstep r (.register hid conn)) hnd2 hff2
        (regInv_registerHost hid conn r hinv)
    | request hid conn =>
      have hcc : clientConns (REvent.request hid conn :: rest) = conn :: clientConns rest :=
        rfl
      rw [hcc] at hnd
      have hnd2 : (clientConns rest).Nodup := hnd.of_cons
      have hfc : FreshConn conn r :=
        hff conn (by simp [clientConns])
      have hff2 : FreshFor rest (rstep r (.request hid conn)) := by
        intro c hc
        have hcne : c ≠ conn := by
          intro hh
          subst hh
          exact (List.nodup_cons.mp hnd).1 hc
        have := hff c (by simp only [clientConns, List.mem_cons]; exact Or.inr hc)
        exact freshConn_requestSession hid conn c r hcne this
      exact ih (rstep r (.request hid conn)) hnd2 hff2
        (regInv_requestSession hid conn r hinv hfc)
    | cancelEv conn =>
      have hnd2 : (clientConns rest).Nodup := by simpa [clientConns] using hnd
      have hff2 : FreshFor rest (rstep r (.cancelEv conn)) := by
        intro c hc
        have := hff c (by simpa [clientConns] using hc)
        exact freshConn_cancelOp conn c r this
      exact ih (rstep r (.cancelEv conn)) hnd2 hff2 (regInv_cancelOp conn r hinv)
    | expire conn =>
      have hnd2 : (clientConns rest).Nodup := by simpa [clientConns] using hnd
      have hff2 : FreshFor rest (rstep r (.expire conn)) := by
        intro c hc
        have := hff c (by simpa [clientConns] using hc)
        exact freshConn_expireOp conn c r this
      exact ih (rstep r (.expire conn)) hnd2 hff2 (regInv_expireOp conn r hinv)

/-- C5: along every serialized trace with distinct client connections, no
client connection is both paired and timed out, nor paired or timed out more
than once in total; and firing the deadline of a still-waiting request
removes it from the waiting list and closes the client connection with the
timeout signal, which is distinguishable from a generic I/O error. -/
theorem sessionRequest_removed_exactly_once (evs : List REvent)
    (h : (clientConns evs).Nodup) :
    (∀ c : Nat, pairedCount c (runReg evs) + timedOutCount c (runReg evs) ≤ 1) ∧
    (∀ (r : Reg) (c : Nat), (∃ q ∈ r.waiting, q.2 = c) →
      (c, CloseReason.timedOut) ∈ (expireOp c r).closed ∧
      ∀ q ∈ (expireOp c r).waiting, q.2 ≠ c) ∧
    CloseReason.timedOut ≠ CloseReason.ioError := by
  refine ⟨?_, ?_, by simp⟩
  · intro c
    have hinv : RegInv (runReg evs) := by
      apply regInv_run evs emptyReg h
      · intro c2 _
        exact ⟨by simp [emptyReg], by simp [pairedCount, emptyReg], by
          simp [timedOutCount, emptyReg]⟩
      · exact ⟨by simp [emptyReg], by simp [emptyReg], by
          intro c2; simp [pairedCount, timedOutCount, emptyReg]⟩
    exact hinv.2.2 c
  · intro r c hex
    obtain ⟨q0, hq0, hq0c⟩ := hex
    have hany : r.waiting.any (fun p => p.2 == c) = true := by
      rw [List.any_eq_true]
      exact ⟨q0, hq0, by simpa using hq0c⟩
    constructor
    · rw [expireOp, if_pos hany]
      simp
    · intro q hq
      rw [expireOp_waiting_pos c r hany] at hq
      have := (List.mem_filter.mp hq).2
      simpa using this

theorem sessionRequest_removed_exactly_once_witness :
    pairedCount 21 (runReg [REvent.request 1 21, REvent.expire 21]) +
        timedOutCount 21 (runReg [REvent.request 1 21, REvent.expire 21]) ≤ 1 ∧
    (21, CloseReason.timedOut) ∈ (expireOp 21 ⟨[], [(1, 21)], [], []⟩).closed := by
  have h := sessionRequest_removed_exactly_once [REvent.request 1 21, REvent.expire 21]
    (by decide)
  exact ⟨h.1 21, (h.2.1 ⟨[], [(1, 21)], [], []⟩ 21 ⟨(1, 21), by decide, rfl⟩).1⟩

theorem isEmpty_false_of_ne {α : Type} (l : List α) (h : l ≠ []) :
    l.isEmpty = false := by
  cases l with
  | nil => exact absurd rfl h
  | cons x xs => rfl

theorem readFileFS_backup (fs : SettingsFS) : (readFileFS fs).2.2.backup = fs.backup := by
  cases hc : fs.config with
  | none =>
    have hb : buildTop (writeEvents []) = some [] := rfl
    simp [readFileFS, hc, writeFileFS, hb]
  | some fc => cases fc <;> simp [readFileFS, hc]

theorem readFileFS_missing (fs : SettingsFS) (h : fs.config = none) :
    readFileFS fs = (true, [], { fs with config := some (.valid []) }) := by
  have hb : buildTop (writeEvents []) = some [] := rfl
  simp [readFileFS, h, writeFileFS, hb]

/-- C10: `JsonSettings::readFile` treats a missing configuration file as the
normal case: it returns success with the cleared (empty) map and writes an
empty configuration document at the path. -/
theorem readFile_missing_file_normal (fs : SettingsFS) (h : fs.config = none) :
    readFileFS fs = (true, [], { fs with config := some (.valid []) }) :=
  readFileFS_missing fs h

theorem readFile_missing_file_normal_witness :
    readFileFS ⟨none, none⟩ =
      (true, [], { config := some (.valid []), backup := none }) :=
  readFile_missing_file_normal ⟨none, none⟩ rfl

/-- C8: `JsonSettings::sync` restores from backup on corruption: when a read
fails or yields the empty map and a backup exists, the loop iteration copies
the backup over the configuration file (and the continued loop re-reads it);
when a read succeeds with a non-empty map and no backup exists, a backup
copy of the configuration file is created. -/
theorem sync_restores_backup_on_corruption :
    (∀ (fs : SettingsFS) (b : FileContent),
      fs.backup = some b →
      (readFileFS fs).2.1 = [] →
      (syncStep fs).1.config = some b) ∧
    (∀ fs : SettingsFS,
      (readFileFS fs).1 = true →
      (readFileFS fs).2.1 ≠ [] →
      fs.backup = none →
      (syncStep fs).1.backup = fs.config ∧ (syncStep fs).1.config = fs.config) ∧
    (∀ (fs : SettingsFS) (tree : List (String × JVal)),
      fs.config = some .corrupt →
      fs.backup = some (.valid tree) →
      toMap (flattenMems [] tree) ≠ [] →
      (syncFS fs).1.config = some (.valid tree) ∧
      (syncFS fs).2 = toMap (flattenMems [] tree)) := by
  refine ⟨?_, ?_, ?_⟩
  · intro fs b hb hm
    have hbk : (readFileFS fs).2.2.backup = some b := by rw [readFileFS_backup]; exact hb
    cases hok : (readFileFS fs).1 with
    | true =>
      simp [syncStep, hok, hm, hasBackupFor, hbk, restoreBackupFor]
    | false =>
      simp [syncStep, hok, hasBackupFor, hbk, restoreBackupFor]
  · intro fs hok hm hb
    cases hc : fs.config with
    | none =>
      rw [readFileFS_missing fs hc] at hm
      exact absurd rfl hm
    | some fc =>
      cases fc with
      | emptyFile => simp [readFileFS, hc] at hm
      | corrupt => simp [readFileFS, hc] at hok
      | valid tree =>
        have hr : readFileFS fs = (true, toMap (flattenMems [] tree), fs) := by
          simp [readFileFS, hc]
        rw [hr] at hm
        have hie := isEmpty_false_of_ne _ hm
        constructor
        · simp [syncStep, hr, hie, hasBackupFor, hb, createBackupFor, hc]
        · simp [syncStep, hr, hie, hasBackupFor, hb, createBackupFor, hc]
  · intro fs tree hc hb hm
    obtain ⟨cfg, bkp⟩ := fs
    simp only at hc hb
    subst hc
    subst hb
    have hie := isEmpty_false_of_ne _ hm
    have h1 : syncStep ⟨some .corrupt, some (.valid tree)⟩ =
        (⟨some (.valid tree), some (.valid tree)⟩, []) := by
      simp [syncStep, readFileFS, hasBackupFor, restoreBackupFor]
    have hr2 : readFileFS ⟨some (.valid tree), some (.valid tree)⟩ =
        (true, toMap (flattenMems [] tree), ⟨some (.valid tree), some (.valid tree)⟩) := by
      simp [readFileFS]
    have h2 : syncStep ⟨some (.valid tree), some (.valid tree)⟩ =
        (⟨some (.valid tree), some (.valid tree)⟩, toMap (flattenMems [] tree)) := by
      simp [syncStep, hr2, hie, hasBackupFor]
    constructor
    · simp [syncFS, h1, h2]
    · simp [syncFS, h1, h2]

theorem sync_restores_backup_on_corruption_witness :
    (syncStep ⟨some .corrupt, some (.valid [("k", .str "v")])⟩).1.config =
        some (.valid [("k", .str "v")]) ∧
    (syncStep ⟨some (.valid [("k", .str "v")]), none⟩).1.backup =
        some (.valid [("k", .str "v")]) ∧
    (syncFS ⟨some .corrupt, some (.valid [("k", .str "v")])⟩).2 = [("k", "v")] := by
  refine ⟨?_, ?_, ?_⟩
  · exact sync_restores_backup_on_corruption.1 ⟨some .corrupt, some (.valid [("k", .str "v")])⟩
      (.valid [("k", .str "v")]) rfl rfl
  · have h := (sync_restores_backup_on_corruption.2.1 ⟨some (.valid [("k", .str "v")]), none⟩
      rfl (by decide) rfl).1
    rw [h]
  · have h := (sync_restores_backup_on_corruption.2.2 ⟨some .corrupt, some (.valid [("k", .str "v")])⟩
      [("k", .str "v")] rfl rfl (by decide)).2
    rw [h]
    rfl

theorem flattenMems_append (segs : List String) (a b : List (String × JVal)) :
    flattenMems segs (a ++ b) = flattenMems segs a ++ flattenMems segs b := by
  induction a with
  | nil => simp [flattenMems]
  | cons x rest ih =>
    cases x with
    | mk name v => simp [flattenMems, ih]

theorem totalOf_eq (stk : List (String × List (String × JVal))) :
    ∀ cur, totalOf stk cur =
      stkEntries stk ++ flattenMems (chainOf stk) cur.reverse := by
  induction stk with
  | nil => intro cur; simp [totalOf, closeAll, stkEntries, chainOf]
  | cons f stk ih =>
    intro cur
    cases f with
    | mk k outer =>
      have h1 : totalOf ((k, outer) :: stk) cur =
          totalOf stk ((k, JVal.obj cur.reverse) :: outer) := rfl
      rw [h1, ih]
      simp only [stkEntries, chainOf, List.reverse_cons, List.append_assoc]
      rw [flattenMems_append]
      simp [flattenMems, flattenVal]

theorem chainOf_length (stk : List (String × List (String × JVal))) :
    (chainOf stk).length = stk.length := by
  induction stk with
  | nil => rfl
  | cons f stk ih => cases f with | mk k outer => simp [chainOf, ih]

theorem totalOf_push_empty (stk : List (String × List (String × JVal)))
    (cur : List (String × JVal)) (x : String) :
    totalOf ((x, cur) :: stk) [] = totalOf stk cur := by
  have h1 : totalOf ((x, cur) :: stk) [] =
      totalOf stk ((x, JVal.obj []) :: cur) := rfl
  rw [h1, totalOf_eq, totalOf_eq]
  simp only [List.reverse_cons]
  rw [flattenMems_append]
  simp [flattenMems, flattenVal]

theorem totalOf_push_str (stk : List (String × List (String × JVal)))
    (cur : List (String × JVal)) (k v : String) :
    totalOf stk ((k, JVal.str v) :: cur) =
      totalOf stk cur ++ [(createKey (chainOf stk ++ [k]), v)] := by
  rw [totalOf_eq, totalOf_eq]
  simp only [List.reverse_cons]
  rw [flattenMems_append]
  simp [flattenMems, flattenVal]

theorem commonLen_take (a : List String) :
    ∀ b, a.take (commonLen a b) = b.take (commonLen a b) := by
  induction a with
  | nil => intro b; simp [commonLen]
  | cons x as ih =>
    intro b
    cases b with
    | nil => simp [commonLen]
    | cons y bs =>
      by_cases hxy : x = y
      · subst hxy
        simp [commonLen, List.take_succ_cons, ih bs]
      · simp [commonLen, hxy]

theorem commonLen_le_left (a : List String) : ∀ b, commonLen a b ≤ a.length := by
  induction a with
  | nil => intro b; simp [commonLen]
  | cons x as ih =>
    intro b
    cases b with
    | nil => simp [commonLen]
    | cons y bs =>
      by_cases hxy : x = y
      · simp only [commonLen, if_pos hxy, List.length_cons]
        exact Nat.succ_le_succ (ih bs)
      · simp [commonLen, hxy]

theorem commonLen_le_right (a : List String) : ∀ b, commonLen a b ≤ b.length := by
  induction a with
  | nil => intro b; simp [commonLen]
  | cons x as ih =>
    intro b
    cases b with
    | nil => simp [commonLen]
    | cons y bs =>
      by_cases hxy : x = y
      · simp only [commonLen, if_pos hxy, List.length_cons]
        exact Nat.succ_le_succ (ih bs)
      · simp [commonLen, hxy]

theorem leadsOf_right_of_commonLen (a : List String) :
    ∀ b, b.length ≤ commonLen a b → leadsOf b a = true := by
  induction a with
  | nil =>
    intro b hb
    simp [commonLen] at hb
    simp [hb, leadsOf]
  | cons x as ih =>
    intro b hb
    cases b with
    | nil => simp [leadsOf]
    | cons y bs =>
      by_cases hxy : x = y
      · subst hxy
        simp only [commonLen, if_pos rfl, List.length_cons] at hb
        have := ih bs (Nat.le_of_succ_le_succ hb)
        simp [leadsOf, this]
      · simp [commonLen, if_neg hxy] at hb

theorem leadsOf_left_of_commonLen (a : List String) :
    ∀ b, a.length ≤ commonLen a b → leadsOf a b = true := by
  induction a with
  | nil => intro b _; simp [leadsOf]
  | cons x as ih =>
    intro b hb
    cases b with
    | nil => simp [commonLen] at hb
    | cons y bs =>
      by_cases hxy : x = y
      · subst hxy
        simp only [commonLen, if_pos rfl, List.length_cons] at hb
        have := ih bs (Nat.le_of_succ_le_succ hb)
        simp [leadsOf, this]
      · simp [commonLen, if_neg hxy] at hb

theorem dropLast_append_ne {α : Type} (A : List α) :
    ∀ B : List α, B ≠ [] → (A ++ B).dropLast = A ++ B.dropLast := by
  induction A with
  | nil => intro B _; simp
  | cons x A ih =>
    intro B hB
    have hne : A ++ B ≠ [] := by
      intro hh
      exact hB (List.append_eq_nil.mp hh).2
    rw [List.cons_append]
    cases hAB : A ++ B with
    | nil => exact absurd hAB hne
    | cons z zs =>
      rw [← hAB, List.dropLast_cons_of_ne_nil hne, ih B hB, List.cons_append]

theorem getLastD_ignore {α : Type} (l : List α) :
    ∀ d1 d2 : α, l ≠ [] → l.getLastD d1 = l.getLastD d2 := by
  induction l with
  | nil => intro d1 d2 h; exact absurd rfl h
  | cons x rest ih =>
    intro d1 d2 _
    cases rest with
    | nil => rfl
    | cons y t => exact ih x x (by simp)

theorem dropLast_concat_getLastD {α : Type} (d : α) (l : List α) (h : l ≠ []) :
    l.dropLast ++ [l.getLastD d] = l := by
  induction l with
  | nil => exact absurd rfl h
  | cons x rest ih =>
    cases rest with
    | nil => rfl
    | cons y t =>
      have hh : (y :: t) ≠ [] := by simp
      rw [List.dropLast_cons_of_ne_nil hh, List.cons_append]
      have : (y :: t).getLastD x = (y :: t).getLastD d := getLastD_ignore (y :: t) x d hh
      have hx : (x :: y :: t).getLastD d = (y :: t).getLastD x := rfl
      rw [hx, this]
      rw [ih hh]

theorem chainOf_drop (stk : List (String × List (String × JVal))) :
    ∀ n, chainOf (stk.drop n) = (chainOf stk).take (stk.length - n) := by
  induction stk with
  | nil => intro n; simp [chainOf]
  | cons f stk ih =>
    intro n
    cases f with
    | mk k outer =>
      cases n with
      | zero =>
        simp only [List.drop_zero, Nat.sub_zero]
        rw [← chainOf_length ((k, outer) :: stk)]
        exact (List.take_length _).symm
      | succ n =>
        simp only [List.drop_succ_cons, List.length_cons, Nat.succ_sub_succ]
        rw [ih n, chainOf]
        have hle : stk.length - n ≤ (chainOf stk).length := by
          rw [chainOf_length]
          omega
        rw [List.take_append_of_le_length hle]

theorem foldl_endObjs (n : Nat) :
    ∀ (stk : List (String × List (String × JVal))) (cur : List (String × JVal)),
      n ≤ stk.length →
      ∃ cur2, (List.replicate n JEvent.endObj).foldl bstep (BState.run stk cur none) =
          BState.run (stk.drop n) cur2 none ∧
        totalOf (stk.drop n) cur2 = totalOf stk cur := by
  induction n with
  | zero =>
    intro stk cur _
    exact ⟨cur, by simp, by simp⟩
  | succ n ih =>
    intro stk cur hn
    cases stk with
    | nil => simp at hn
    | cons f stk2 =>
      cases f with
      | mk k outer =>
        have hstep : bstep (BState.run ((k, outer) :: stk2) cur none) JEvent.endObj =
            BState.run stk2 ((k, JVal.obj cur.reverse) :: outer) none := rfl
        have htot : totalOf stk2 ((k, JVal.obj cur.reverse) :: outer) =
            totalOf ((k, outer) :: stk2) cur := rfl
        obtain ⟨cur2, hrun, htot2⟩ :=
          ih stk2 ((k, JVal.obj cur.reverse) :: outer) (Nat.le_of_succ_le_succ hn)
        refine ⟨cur2, ?_, ?_⟩
        · rw [List.replicate_succ, List.foldl_cons, hstep, hrun]
          simp
        · rw [List.drop_succ_cons, htot2, htot]

theorem foldl_open (l : List String) :
    ∀ (stk : List (String × List (String × JVal))) (cur : List (String × JVal)),
      l ≠ [] →
      ∃ stk2 cur2,
        (openEvents l).foldl bstep (BState.run stk cur none) = BState.run stk2 cur2 none ∧
        chainOf stk2 = chainOf stk ++ l.dropLast ∧
        totalOf stk2 cur2 = totalOf stk cur := by
  induction l with
  | nil => intro stk cur h; exact absurd rfl h
  | cons x rest ih =>
    intro stk cur _
    cases rest with
    | nil =>
      exact ⟨stk, cur, by simp [openEvents], by simp, rfl⟩
    | cons y t =>
      have hop : openEvents (x :: y :: t) =
          JEvent.key x :: JEvent.startObj :: openEvents (y :: t) := rfl
      have hsteps :
          (JEvent.key x :: JEvent.startObj :: openEvents (y :: t)).foldl bstep
              (BState.run stk cur none) =
            (openEvents (y :: t)).foldl bstep (BState.run ((x, cur) :: stk) [] none) := rfl
      obtain ⟨stk2, cur2, hrun, hch, htot⟩ := ih ((x, cur) :: stk) [] (by simp)
      refine ⟨stk2, cur2, ?_, ?_, ?_⟩
      · rw [hop, hsteps, hrun]
      · rw [hch, chainOf]
        have : (x :: y :: t).dropLast = x :: (y :: t).dropLast := by
          rw [List.dropLast_cons_of_ne_nil (by simp)]
        rw [this]
        simp
      · rw [htot, totalOf_push_empty]

theorem foldl_item (prev segs : List String) (v : String)
    (stk : List (String × List (String × JVal))) (cur : List (String × JVal))
    (hch : chainOf stk = prev.dropLast) (hg : GoodNext prev segs) :
    ∃ stk2 cur2,
      (itemEvents prev segs v).foldl bstep (BState.run stk cur none) =
        BState.run stk2 cur2 none ∧
      chainOf stk2 = segs.dropLast ∧
      totalOf stk2 cur2 = totalOf stk cur ++ [(createKey segs, v)] := by
  obtain ⟨hsegs, hcb, hca⟩ := hg
  have hlen : stk.length = prev.length - 1 := by
    rw [← chainOf_length stk, hch, List.length_dropLast]
  have hn : prev.length - 1 - commonLen prev segs ≤ stk.length := by omega
  obtain ⟨curA, hrunA, htotA⟩ := foldl_endObjs (prev.length - 1 - commonLen prev segs) stk cur hn
  have hchA : chainOf (stk.drop (prev.length - 1 - commonLen prev segs)) =
      segs.take (commonLen prev segs) := by
    rw [chainOf_drop, hch]
    rcases hca with hnil | hlt
    · subst hnil
      have hc0 : commonLen ([] : List String) segs = 0 := rfl
      rw [hc0]
      simp
    · have hstk : stk.length - (prev.length - 1 - commonLen prev segs) =
          commonLen prev segs := by omega
      rw [hstk, List.dropLast_eq_take, List.take_take]
      have hmin : min (commonLen prev segs) (prev.length - 1) = commonLen prev segs := by
        omega
      rw [hmin, commonLen_take]
  have hdropne : segs.drop (commonLen prev segs) ≠ [] := by
    intro hh
    have := List.drop_eq_nil_iff.mp hh
    omega
  obtain ⟨stkB, curB, hrunB, hchB, htotB⟩ :=
    foldl_open (segs.drop (commonLen prev segs))
      (stk.drop (prev.length - 1 - commonLen prev segs)) curA hdropne
  have hchB2 : chainOf stkB = segs.dropLast := by
    rw [hchB, hchA,
      ← dropLast_append_ne (segs.take (commonLen prev segs))
        (segs.drop (commonLen prev segs)) hdropne,
      List.take_append_drop]
  have hleaf :
      ([JEvent.key (segs.getLastD ""), JEvent.strVal v]).foldl bstep
          (BState.run stkB curB none) =
        BState.run stkB ((segs.getLastD "", JVal.str v) :: curB) none := rfl
  refine ⟨stkB, (segs.getLastD "", JVal.str v) :: curB, ?_, ?_, ?_⟩
  · rw [itemEvents]
    rw [List.foldl_append, List.foldl_append, hrunA, hrunB, hleaf]
  · exact hchB2
  · rw [totalOf_push_str, htotB, htotA, hchB2, dropLast_concat_getLastD "" segs hsegs]

theorem foldl_body (items : List (String × String)) :
    ∀ (prev : List String) (stk : List (String × List (String × JVal)))
      (cur : List (String × JVal)),
      chainOf stk = prev.dropLast → GoodSeq prev items →
      ∃ cur2,
        (bodyEvents prev items).foldl bstep (BState.run stk cur none) =
          BState.run [] cur2 none ∧
        totalOf [] cur2 =
          totalOf stk cur ++ items.map (fun kv => (createKey (splitKey kv.1), kv.2)) := by
  induction items with
  | nil =>
    intro prev stk cur hch _
    have hlen : stk.length = prev.length - 1 := by
      rw [← chainOf_length stk, hch, List.length_dropLast]
    obtain ⟨cur2, hrun, htot⟩ :=
      foldl_endObjs (prev.length - 1) stk cur (by omega)
    have hdrop : stk.drop (prev.length - 1) = [] := by
      rw [← hlen, List.drop_length]
    rw [hdrop] at hrun htot
    exact ⟨cur2, by simpa [bodyEvents] using hrun, by simpa using htot⟩
  | cons kv rest ih =>
    intro prev stk cur hch hg
    cases kv with
    | mk k v =>
      obtain ⟨hg1, hg2⟩ := hg
      obtain ⟨stkA, curA, hrunA, hchA, htotA⟩ := foldl_item prev (splitKey k) v stk cur hch hg1
      obtain ⟨cur2, hrun2, htot2⟩ := ih (splitKey k) stkA curA hchA hg2
      refine ⟨cur2, ?_, ?_⟩
      · rw [bodyEvents, List.foldl_append, hrunA, hrun2]
      · rw [htot2, htotA]
        simp

theorem buildTop_writeEvents (m : List (String × String)) (hg : GoodSeq [] m) :
    ∃ tree, buildTop (writeEvents m) = some tree ∧
      flattenMems [] tree = m.map (fun kv => (createKey (splitKey kv.1), kv.2)) := by
  obtain ⟨cur2, hrun, htot⟩ := foldl_body m [] [] [] rfl hg
  have hW : writeEvents m = JEvent.startObj :: (bodyEvents [] m ++ [JEvent.endObj]) := by
    simp [writeEvents]
  have hfold : (bodyEvents [] m ++ [JEvent.endObj]).foldl bstep (BState.run [] [] none) =
      BState.doneSt cur2.reverse := by
    rw [List.foldl_append, hrun]
    rfl
  refine ⟨cur2.reverse, ?_, ?_⟩
  · rw [hW, buildTop]
    simp only [hfold]
  · have h1 : flattenMems [] cur2.reverse = totalOf [] cur2 := rfl
    have h2 : totalOf ([] : List (String × List (String × JVal))) ([] : List (String × JVal)) =
        [] := rfl
    rw [h1, htot, h2, List.nil_append]

theorem charListLt_irrefl (a : List Char) : charListLt a a = false := by
  induction a with
  | nil => rfl
  | cons x as ih => simp [charListLt, ih]

theorem charListLt_asymm (a : List Char) :
    ∀ b, charListLt a b = true → charListLt b a = false := by
  induction a with
  | nil =>
    intro b hab
    cases b with
    | nil => simp [charListLt] at hab
    | cons y bs => rfl
  | cons x as ih =>
    intro b hab
    cases b with
    | nil => simp [charListLt] at hab
    | cons y bs =>
      by_cases h1 : x.toNat < y.toNat
      · have h2 : ¬(y.toNat < x.toNat) := by omega
        simp [charListLt, h1, h2]
      · by_cases h2 : y.toNat < x.toNat
        · simp [charListLt, h1, h2] at hab
        · have hab2 : charListLt as bs = true := by
            simpa [charListLt, h1, h2] using hab
          simp [charListLt, h1, h2, ih bs hab2]

theorem strLt_irrefl (a : String) : strLt a a = false :=
  charListLt_irrefl a.toList

theorem strLt_asymm (a b : String) (h : strLt a b = true) : strLt b a = false :=
  charListLt_asymm a.toList b.toList h

theorem insSorted_append_of_lt (k v : String) (acc : List (String × String))
    (hlt : ∀ a ∈ acc, strLt a.1 k = true) : insSorted k v acc = acc ++ [(k, v)] := by
  induction acc with
  | nil => rfl
  | cons a acc ih =>
    have ha : strLt a.1 k = true := hlt a (by simp)
    have h1 : ¬(strLt k a.1 = true) := by
      rw [strLt_asymm a.1 k ha]
      simp
    have h2 : ¬(k = a.1) := by
      intro hh
      rw [hh] at ha
      rw [strLt_irrefl a.1] at ha
      exact absurd ha (by simp)
    cases a with
    | mk ka va =>
      rw [insSorted, if_neg h1, if_neg h2, ih (fun b hb => hlt b (by simp [hb]))]
      rfl

theorem foldl_insSorted_sorted (m : List (String × String)) :
    ∀ acc : List (String × String),
      List.Pairwise (fun a b : String × String => strLt a.1 b.1 = true) (acc ++ m) →
      m.foldl (fun m2 kv => insSorted kv.1 kv.2 m2) acc = acc ++ m := by
  induction m with
  | nil => intro acc _; simp
  | cons kv rest ih =>
    intro acc hp
    have hcross := (List.pairwise_append.mp hp).2.2
    have hlt : ∀ a ∈ acc, strLt a.1 kv.1 = true := fun a ha => hcross a ha kv (by simp)
    rw [List.foldl_cons, insSorted_append_of_lt kv.1 kv.2 acc hlt]
    have hp2 : List.Pairwise (fun a b : String × String => strLt a.1 b.1 = true)
        ((acc ++ [kv]) ++ rest) := by
      have : (acc ++ [kv]) ++ rest = acc ++ kv :: rest := by simp
      rw [this]
      exact hp
    have := ih (acc ++ [(kv.1, kv.2)]) (by simpa using hp2)
    rw [this]
    simp

theorem toMap_of_sorted (m : List (String × String))
    (hp : List.Pairwise (fun a b : String × String => strLt a.1 b.1 = true) m) :
    toMap m = m := by
  have := foldl_insSorted_sorted m [] (by simpa using hp)
  simpa [toMap] using this

theorem goodNext_of (a b : List String) (hb : b ≠ [])
    (h : a = [] ∨ (properLead a b = false ∧ properLead b a = false ∧ a ≠ b)) :
    GoodNext a b := by
  refine ⟨hb, ?_, ?_⟩
  · rcases h with hnil | ⟨_, hba, hne⟩
    · subst hnil
      have hc0 : commonLen ([] : List String) b = 0 := rfl
      rw [hc0]
      exact List.length_pos.mpr hb
    · by_contra hcon
      have hle : b.length ≤ commonLen a b := Nat.le_of_not_lt hcon
      have hlead := leadsOf_right_of_commonLen a b hle
      rw [properLead, hlead, Bool.true_and, bne_eq_false_iff_eq] at hba
      exact hne hba.symm
  · rcases h with hnil | ⟨hab, _, hne⟩
    · exact Or.inl hnil
    · right
      by_contra hcon
      have hle : a.length ≤ commonLen a b := Nat.le_of_not_lt hcon
      have hlead := leadsOf_left_of_commonLen a b hle
      rw [properLead, hlead, Bool.true_and, bne_eq_false_iff_eq] at hab
      exact hne hab

theorem goodSeq_of (items : List (String × String)) :
    ∀ prev : List String,
      (∀ kv ∈ items, splitKey kv.1 ≠ []) →
      (prev = [] ∨ ∀ kv ∈ items,
        properLead prev (splitKey kv.1) = false ∧
        properLead (splitKey kv.1) prev = false ∧ prev ≠ splitKey kv.1) →
      List.Pairwise (fun kv1 kv2 : String × String =>
        properLead (splitKey kv1.1) (splitKey kv2.1) = false ∧
        properLead (splitKey kv2.1) (splitKey kv1.1) = false ∧
        splitKey kv1.1 ≠ splitKey kv2.1) items →
      GoodSeq prev items := by
  induction items with
  | nil => intro prev _ _ _; exact trivial
  | cons kv rest ih =>
    intro prev hne hprev hp
    cases kv with
    | mk k v =>
      have hk : splitKey k ≠ [] := hne (k, v) (by simp)
      constructor
      · apply goodNext_of prev (splitKey k) hk
        rcases hprev with hnil | hall
        · exact Or.inl hnil
        · exact Or.inr (hall (k, v) (by simp))
      · apply ih (splitKey k) (fun kv2 h2 => hne kv2 (by simp [h2]))
        · right
          intro kv2 h2
          have := (List.pairwise_cons.mp hp).1 kv2 h2
          exact this
        · exact (List.pairwise_cons.mp hp).2

theorem map_entries_eq (m : List (String × String))
    (h : ∀ kv ∈ m, createKey (splitKey kv.1) = kv.1) :
    m.map (fun kv => (createKey (splitKey kv.1), kv.2)) = m := by
  induction m with
  | nil => rfl
  | cons kv rest ih =>
    cases kv with
    | mk k v =>
      have hk : createKey (splitKey k) = k := h (k, v) (by simp)
      rw [List.map_cons, hk, ih (fun kv2 h2 => h kv2 (by simp [h2]))]

/-- C9: the settings store round-trips: for every sorted map whose keys are
non-empty well-formed '/'-separated segment paths (each key equal to the
join of its own split) with no key's segment path a proper leading run of
another key's, `JsonSettings::writeFile` succeeds and a subsequent
`JsonSettings::readFile` of the written configuration succeeds and returns
exactly the original map. -/
theorem writeFile_readFile_roundtrip (m : List (String × String)) (fs : SettingsFS)
    (hsorted : List.Pairwise (fun a b : String × String => strLt a.1 b.1 = true) m)
    (hkeys : ∀ kv ∈ m, splitKey kv.1 ≠ [] ∧ createKey (splitKey kv.1) = kv.1)
    (hnop : List.Pairwise (fun a b : String × String =>
      properLead (splitKey a.1) (splitKey b.1) = false ∧
      properLead (splitKey b.1) (splitKey a.1) = false) m) :
    (writeFileFS m fs).1 = true ∧
    readFileFS (writeFileFS m fs).2 = (true, m, (writeFileFS m fs).2) := by
  have hp3 : List.Pairwise (fun kv1 kv2 : String × String =>
      properLead (splitKey kv1.1) (splitKey kv2.1) = false ∧
      properLead (splitKey kv2.1) (splitKey kv1.1) = false ∧
      splitKey kv1.1 ≠ splitKey kv2.1) m := by
    apply (hnop.and hsorted).imp_of_mem
    intro a b ha hb hr
    refine ⟨hr.1.1, hr.1.2, ?_⟩
    intro heq
    have h1 : a.1 = b.1 := by
      rw [← (hkeys a ha).2, ← (hkeys b hb).2, heq]
    rw [h1] at hr
    rw [strLt_irrefl b.1] at hr
    exact absurd hr.2 (by simp)
  have hgood : GoodSeq [] m :=
    goodSeq_of m [] (fun kv h => (hkeys kv h).1) (Or.inl rfl) hp3
  obtain ⟨tree, hbuild, hflat⟩ := buildTop_writeEvents m hgood
  have hw : writeFileFS m fs = (true, { fs with config := some (.valid tree) }) := by
    simp [writeFileFS, hbuild]
  rw [hw]
  refine ⟨rfl, ?_⟩
  have hmap : m.map (fun kv => (createKey (splitKey kv.1), kv.2)) = m :=
    map_entries_eq m (fun kv h => (hkeys kv h).2)
  simp [readFileFS, hflat, hmap, toMap_of_sorted m hsorted]

theorem writeFile_readFile_roundtrip_witness :
    (writeFileFS [("aa/bb", "1"), ("aa/cc", "2"), ("b", "3")] ⟨none, none⟩).1 = true ∧
    readFileFS (writeFileFS [("aa/bb", "1"), ("aa/cc", "2"), ("b", "3")] ⟨none, none⟩).2 =
      (true, [("aa/bb", "1"), ("aa/cc", "2"), ("b", "3")],
        (writeFileFS [("aa/bb", "1"), ("aa/cc", "2"), ("b", "3")] ⟨none, none⟩).2) :=
  writeFile_readFile_roundtrip [("aa/bb", "1"), ("aa/cc", "2"), ("b", "3")]
    ⟨none, none⟩ (by decide) (by decide) (by decide)
